import Mathlib

/-!
Verification of the vivaldi-notes-parser core (src/main.rs): the JSON tree
matcher (`traverse_json`), the summary builder (`summary_traversal_helper`)
and the argument interpreter (`parse_args`), shallowly embedded in Lean.
-/

set_option maxHeartbeats 1000000

namespace VivaldiNotes

/-- Embedding of `serde_json::Value`: the dynamically typed JSON tree the
program traverses.  Numbers carry an `Int` payload (their exact value is
irrelevant to every operation modelled here). -/
inductive Value where
  | null
  | bool (b : Bool)
  | num (n : Int)
  | str (s : String)
  | arr (elems : List Value)
  | obj (fields : List (String × Value))

/-- Association-list field lookup, the behaviour of indexing a
`serde_json::Map` with a string key: the value if present, `Null` if not. -/
def findField (k : String) : List (String × Value) → Value
  | [] => Value.null
  | (k2, v) :: rest => if k = k2 then v else findField k rest

/-- Embedding of `json[key]` (`Index<&str>` on `serde_json::Value`):
field lookup on objects, `Null` on every other variant. -/
def Value.index (j : Value) (k : String) : Value :=
  match j with
  | .obj fields => findField k fields
  | _ => .null

/-- Whether a value is the `String` variant. -/
def Value.isStr : Value → Bool
  | .str _ => true
  | _ => false

/-- The `children` binding computed at the top of `traverse_json` (and the
guard of the `children` arm of `summary_traversal_helper`): the children
array when `json["children"]` is a non-empty array, nothing otherwise. -/
def childArr (j : Value) : Option (List Value) :=
  match j.index "children" with
  | .arr cs => if cs.isEmpty then none else some cs
  | _ => none

/-- `pat` is a prefix of `hay` (character lists). -/
def leadsWith : List Char → List Char → Bool
  | _, [] => true
  | [], _ :: _ => false
  | a :: hay, b :: pat => a == b && leadsWith hay pat

/-- Embedding of Rust `str::contains` with a string pattern: `pat` occurs
as a contiguous (case-sensitive) substring of `hay`. -/
def containsSub : List Char → List Char → Bool
  | [], pat => leadsWith [] pat
  | a :: hay, pat => leadsWith (a :: hay) pat || containsSub hay pat

/-- The two leaf arms of the `match` in `traverse_json`: a leaf matches when
the field named `key` and the field `content` are both strings and the
supplied criterion holds; the `content` string is returned. -/
def selfMatch (key : String) (val cont : Option String) (j : Value) : Option String :=
  match j.index key, j.index "content", val, cont with
  | .str k, .str content, some v, none =>
      if k = v then some content else none
  | .str k, .str content, none, some c =>
      if containsSub k.data c.data then some content else none
  | _, _, _, _ => none

theorem findField_sizeOf_le (k : String) (fs : List (String × Value)) :
    sizeOf (findField k fs) ≤ sizeOf fs := by
  induction fs with
  | nil => simp [findField]
  | cons hd tl ih =>
    obtain ⟨k2, v⟩ := hd
    simp only [findField]
    split
    · simp; omega
    · simp; omega

theorem childArr_sizeOf (j : Value) (cs : List Value)
    (h : childArr j = some cs) : sizeOf cs < sizeOf j := by
  cases j with
  | obj fields =>
    have hle := findField_sizeOf_le "children" fields
    simp only [childArr, Value.index] at h
    split at h
    next cs2 heq =>
      split at h
      · simp at h
      · simp only [Option.some.injEq] at h
        subst h
        rw [heq] at hle
        simp only [Value.arr.sizeOf_spec] at hle
        simp only [Value.obj.sizeOf_spec]
        omega
    next => simp at h
  | null => simp [childArr, Value.index] at h
  | bool b => simp [childArr, Value.index] at h
  | num n => simp [childArr, Value.index] at h
  | str s => simp [childArr, Value.index] at h
  | arr es => simp [childArr, Value.index] at h

mutual

/-- Embedding of `traverse_json`: if the node has a non-empty `children`
array, recurse over the children in order returning the first hit; otherwise
test the node itself against the criterion. -/
def traverse_json (key : String) (val cont : Option String) (j : Value) :
    Option String :=
  match hc : childArr j with
  | some cs => traverse_list key val cont cs
  | none => selfMatch key val cont j
termination_by sizeOf j
decreasing_by exact childArr_sizeOf j cs hc

/-- The `for child in children` loop of `traverse_json`: first `Some`
result wins, later children are not consulted. -/
def traverse_list (key : String) (val cont : Option String)
    (cs : List Value) : Option String :=
  match cs with
  | [] => none
  | c :: rest =>
    match traverse_json key val cont c with
    | some r => some r
    | none => traverse_list key val cont rest
termination_by sizeOf cs

end

mutual

/-- The leaves of the tree in document order (pre-order, children
left-to-right): the nodes `traverse_json` actually tests. -/
def leaves (j : Value) : List Value :=
  match hc : childArr j with
  | some cs => leavesList cs
  | none => [j]
termination_by sizeOf j
decreasing_by exact childArr_sizeOf j cs hc

/-- Leaves of a forest, in order. -/
def leavesList (cs : List Value) : List Value :=
  match cs with
  | [] => []
  | c :: rest => leaves c ++ leavesList rest
termination_by sizeOf cs

end

mutual

/-- Nesting depth of a node: 0 for a leaf (no non-empty `children` array),
one more than the deepest child otherwise. -/
def depth (j : Value) : Nat :=
  match hc : childArr j with
  | some cs => depthList cs + 1
  | none => 0
termination_by sizeOf j
decreasing_by exact childArr_sizeOf j cs hc

/-- Maximum depth over a forest. -/
def depthList (cs : List Value) : Nat :=
  match cs with
  | [] => 0
  | c :: rest => max (depth c) (depthList rest)
termination_by sizeOf cs

end

/-! UTF-8 byte-level string slicing, as Rust performs it. -/

/-- Number of UTF-8 bytes encoding a character (Rust `char::len_utf8`). -/
def charBytes (c : Char) : Nat :=
  if c.toNat < 0x80 then 1
  else if c.toNat < 0x800 then 2
  else if c.toNat < 0x10000 then 3
  else 4

/-- UTF-8 byte length of a character list (Rust `str::len`). -/
def utf8Len (cs : List Char) : Nat := (cs.map charBytes).sum

/-- Take the characters occupying exactly the first `n` bytes of the UTF-8
encoding; `none` when `n` does not land on a character boundary (the case
where Rust's `&s[..n]` panics). -/
def takeBytes (cs : List Char) (n : Nat) : Option (List Char) :=
  match cs, n with
  | _, 0 => some []
  | [], _ + 1 => none
  | c :: rest, m + 1 =>
    if charBytes c ≤ m + 1 then
      (takeBytes rest (m + 1 - charBytes c)).map (fun l => c :: l)
    else none

/-- Embedding of `&s[..std::cmp::min(30, s.len())]`: the byte-slice the
summary applies to `subject` and `content`.  `none` models the panic raised
when byte index `min(30, len)` is not a character boundary. -/
def truncate30 (s : String) : Option String :=
  (takeBytes s.data (min 30 (utf8Len s.data))).map (fun cs => String.mk cs)

/-! The summary builder (`summary_traversal_helper`). -/

/-- The `id` insertion of `summary_traversal_helper`: copied verbatim when
the field is a string, omitted otherwise. -/
def idField (j : Value) : List (String × Value) :=
  match j.index "id" with
  | .str id => [("id", Value.str id)]
  | _ => []

/-- The `subject` insertion: truncated to the first `min(30, len)` bytes
when the field is a string (`none` models the slicing panic), omitted
otherwise. -/
def subjField (j : Value) : Option (List (String × Value)) :=
  match j.index "subject" with
  | .str s => (truncate30 s).map (fun t => [("subject", Value.str t)])
  | _ => some []

/-- The `content` insertion, same shape as the `subject` insertion. -/
def contField (j : Value) : Option (List (String × Value)) :=
  match j.index "content" with
  | .str s => (truncate30 s).map (fun t => [("content", Value.str t)])
  | _ => some []

mutual

/-- Embedding of `summary_traversal_helper`: build the summary object from
the (possibly truncated) `id`/`subject`/`content` fields and the recursively
summarized children.  The result is `none` exactly when a truncation panic
occurs anywhere in the tree (in `subject`, `content`, or inside any child),
matching the abort semantics of the Rust panic regardless of which slice
panics first. -/
def summary_traversal_helper (j : Value) : Option Value :=
  match hc : childArr j with
  | some cs =>
    match subjField j, contField j, summary_list cs with
    | some subjF, some contF, some scs =>
      some (Value.obj (idField j ++ subjF ++ contF ++
        [("children", Value.arr scs)]))
    | _, _, _ => none
  | none =>
    match subjField j, contField j with
    | some subjF, some contF =>
      some (Value.obj (idField j ++ subjF ++ contF))
    | _, _ => none
termination_by sizeOf j
decreasing_by exact childArr_sizeOf j cs hc

/-- The children loop of `summary_traversal_helper`: each child summarized
in order. -/
def summary_list (cs : List Value) : Option (List Value) :=
  match cs with
  | [] => some []
  | c :: rest =>
    match summary_traversal_helper c, summary_list rest with
    | some sc, some srest => some (sc :: srest)
    | _, _ => none
termination_by sizeOf cs

end

/-! The argument interpreter (`parse_args`). -/

/-- Embedding of `Input`: where the notes JSON is read from. -/
inductive Input where
  | file (path : String)
  | stdin
deriving DecidableEq, Repr

/-- Embedding of `Args`: the command produced by the interpreter. -/
inductive Args where
  | help
  | keyArgs (key val cont : Option String) (input : Input)
deriving DecidableEq, Repr

/-- The mutable locals of `parse_args` (`key`, `val`, `contains`,
`input`). -/
structure PSt where
  key : Option String
  val : Option String
  cont : Option String
  input : Input
deriving DecidableEq, Repr

/-- The checks performed after the scan loop of `parse_args`: `-v` and `-c`
together yield `Help`, as does a criterion without a key; otherwise the
collected state becomes the command. -/
def finish (st : PSt) : Args :=
  if st.val.isSome && st.cont.isSome then .help
  else
    match st.key, st.val.isSome || st.cont.isSome with
    | none, true => .help
    | _, _ => .keyArgs st.key st.val st.cont st.input

/-- The scan loop of `parse_args` over the enumerated argument vector:
`total` is `args.len()`, `i` the index of the head of `rest`.  Index 0 is
skipped; `-h`/`--help` returns immediately; `-k`/`-v`/`-c` consume the next
token (returning `Help` when it is missing); any other token at the last
index becomes the input file; all other tokens are ignored. -/
def parse_loop (total : Nat) : Nat → List String → PSt → Args
  | _, [], st => finish st
  | i, arg :: rest, st =>
    if i = 0 then parse_loop total (i + 1) rest st
    else if arg = "-h" ∨ arg = "--help" then .help
    else if arg = "-k" ∨ arg = "--key" then
      match rest with
      | [] => .help
      | w :: rest2 => parse_loop total (i + 2) rest2 { st with key := some w }
    else if arg = "-v" ∨ arg = "--value" then
      match rest with
      | [] => .help
      | w :: rest2 => parse_loop total (i + 2) rest2 { st with val := some w }
    else if arg = "-c" ∨ arg = "--contains" then
      match rest with
      | [] => .help
      | w :: rest2 => parse_loop total (i + 2) rest2 { st with cont := some w }
    else if i = total - 1 then
      parse_loop total (i + 1) rest { st with input := .file arg }
    else parse_loop total (i + 1) rest st

/-- Embedding of `parse_args`: scan the full argument vector (program name
at index 0) starting from an empty state, then apply the final checks. -/
def parse_args (args : List String) : Args :=
  parse_loop args.length 0 args ⟨none, none, none, .stdin⟩

theorem parse_loop_cons (total i : Nat) (arg : String) (rest : List String)
    (st : PSt) :
    parse_loop total i (arg :: rest) st =
      (if i = 0 then parse_loop total (i + 1) rest st
       else if arg = "-h" ∨ arg = "--help" then .help
       else if arg = "-k" ∨ arg = "--key" then
         match rest with
         | [] => .help
         | w :: rest2 => parse_loop total (i + 2) rest2 { st with key := some w }
       else if arg = "-v" ∨ arg = "--value" then
         match rest with
         | [] => .help
         | w :: rest2 => parse_loop total (i + 2) rest2 { st with val := some w }
       else if arg = "-c" ∨ arg = "--contains" then
         match rest with
         | [] => .help
         | w :: rest2 => parse_loop total (i + 2) rest2 { st with cont := some w }
       else if i = total - 1 then
         parse_loop total (i + 1) rest { st with input := .file arg }
       else parse_loop total (i + 1) rest st) := by
  rw [parse_loop.eq_def]

/-! Destructor lemmas for the well-founded recursive definitions. -/

theorem traverse_json_of_some (key : String) (val cont : Option String)
    (j : Value) (cs : List Value) (hc : childArr j = some cs) :
    traverse_json key val cont j = traverse_list key val cont cs := by
  rw [traverse_json]
  split
  next cs2 heq => rw [hc] at heq; cases heq; rfl
  next heq => rw [hc] at heq; cases heq

theorem traverse_json_of_none (key : String) (val cont : Option String)
    (j : Value) (hc : childArr j = none) :
    traverse_json key val cont j = selfMatch key val cont j := by
  rw [traverse_json]
  split
  next cs2 heq => rw [hc] at heq; cases heq
  next heq => rfl

theorem leaves_of_some (j : Value) (cs : List Value)
    (hc : childArr j = some cs) : leaves j = leavesList cs := by
  rw [leaves]
  split
  next cs2 heq => rw [hc] at heq; cases heq; rfl
  next heq => rw [hc] at heq; cases heq

theorem leaves_of_none (j : Value) (hc : childArr j = none) :
    leaves j = [j] := by
  rw [leaves]
  split
  next cs2 heq => rw [hc] at heq; cases heq
  next heq => rfl

theorem depth_of_some (j : Value) (cs : List Value)
    (hc : childArr j = some cs) : depth j = depthList cs + 1 := by
  rw [depth]
  split
  next cs2 heq => rw [hc] at heq; cases heq; rfl
  next heq => rw [hc] at heq; cases heq

theorem depth_of_none (j : Value) (hc : childArr j = none) : depth j = 0 := by
  rw [depth]
  split
  next cs2 heq => rw [hc] at heq; cases heq
  next heq => rfl

/-! Characterization of the search: it returns the head of the list of
matching leaves taken in document order. -/

theorem traverse_list_eq_of (key : String) (val cont : Option String)
    (cs : List Value)
    (ih : ∀ c ∈ cs, traverse_json key val cont c =
      ((leaves c).filterMap (selfMatch key val cont)).head?) :
    traverse_list key val cont cs =
      ((leavesList cs).filterMap (selfMatch key val cont)).head? := by
  induction cs with
  | nil => simp [traverse_list, leavesList]
  | cons c rest ihr =>
    rw [traverse_list, leavesList, List.filterMap_append]
    rw [ih c (by simp)]
    cases hl : (leaves c).filterMap (selfMatch key val cont) with
    | nil =>
      simp only [List.head?_nil, List.nil_append]
      exact ihr (fun x hx => ih x (by simp [hx]))
    | cons a t => simp

theorem traverse_eq_leaves_aux (key : String) (val cont : Option String) :
    ∀ (n : Nat) (j : Value), sizeOf j < n →
      traverse_json key val cont j =
        ((leaves j).filterMap (selfMatch key val cont)).head? := by
  intro n
  induction n with
  | zero => intro j h; omega
  | succ m ih =>
    intro j hj
    cases hc : childArr j with
    | some cs =>
      rw [traverse_json_of_some key val cont j cs hc, leaves_of_some j cs hc]
      apply traverse_list_eq_of
      intro c hcmem
      apply ih
      have h1 : sizeOf cs < sizeOf j := childArr_sizeOf j cs hc
      have h2 : sizeOf c < sizeOf cs := List.sizeOf_lt_of_mem hcmem
      omega
    | none =>
      rw [traverse_json_of_none key val cont j hc, leaves_of_none j hc]
      cases hsel : selfMatch key val cont j <;> simp [hsel]

theorem traverse_json_eq_leaves (key : String) (val cont : Option String)
    (j : Value) :
    traverse_json key val cont j =
      ((leaves j).filterMap (selfMatch key val cont)).head? :=
  traverse_eq_leaves_aux key val cont (sizeOf j + 1) j (by omega)

theorem mem_leavesList (l : Value) (cs : List Value)
    (h : l ∈ leavesList cs) : ∃ c ∈ cs, l ∈ leaves c := by
  induction cs with
  | nil => simp [leavesList] at h
  | cons c rest ih =>
    rw [leavesList, List.mem_append] at h
    cases h with
    | inl h1 => exact ⟨c, by simp, h1⟩
    | inr h2 =>
      obtain ⟨c2, hc2, hl2⟩ := ih h2
      exact ⟨c2, by simp [hc2], hl2⟩

theorem leaves_are_leafy_aux :
    ∀ (n : Nat) (j : Value), sizeOf j < n →
      ∀ l ∈ leaves j, childArr l = none := by
  intro n
  induction n with
  | zero => intro j h; omega
  | succ m ih =>
    intro j hj l hl
    cases hc : childArr j with
    | some cs =>
      rw [leaves_of_some j cs hc] at hl
      obtain ⟨c, hcmem, hlc⟩ := mem_leavesList l cs hl
      refine ih c ?_ l hlc
      have h1 : sizeOf cs < sizeOf j := childArr_sizeOf j cs hc
      have h2 : sizeOf c < sizeOf cs := List.sizeOf_lt_of_mem hcmem
      omega
    | none =>
      rw [leaves_of_none j hc] at hl
      simp at hl
      subst hl
      exact hc

theorem leaves_are_leafy (j : Value) :
    ∀ l ∈ leaves j, childArr l = none :=
  leaves_are_leafy_aux (sizeOf j + 1) j (by omega)

/-- C3: search is leaf-only.  Every successful search result is produced by
a leaf of the tree (a node whose `children` field is absent, null, empty or
not an array) via the direct criterion test; when the root itself has a
non-empty `children` array, the witnessing node is never the root itself,
even if the root's own fields satisfy the criterion. -/
theorem search_leaf_only (key : String) (val cont : Option String)
    (j : Value) (s : String)
    (hres : traverse_json key val cont j = some s) :
    ∃ l ∈ leaves j, childArr l = none ∧ selfMatch key val cont l = some s ∧
      (childArr j ≠ none → l ≠ j) := by
  rw [traverse_json_eq_leaves] at hres
  have hmem : s ∈ (leaves j).filterMap (selfMatch key val cont) :=
    List.mem_of_mem_head? (by rw [hres]; simp)
  obtain ⟨l, hl, hsel⟩ := List.mem_filterMap.mp hmem
  have hleaf : childArr l = none := leaves_are_leafy j l hl
  refine ⟨l, hl, hleaf, hsel, fun hne hlj => hne ?_⟩
  rw [← hlj]
  exact hleaf

/-- C3 witness: on a two-level tree whose root has a matching descendant,
the returned content comes from a leaf distinct from the root. -/
theorem search_leaf_only_witness :
    ∃ l ∈ leaves (Value.obj [("id", Value.str "1"), ("content", Value.str "c"),
        ("children", Value.arr [Value.obj [("id", Value.str "2"),
          ("content", Value.str "d")]])]),
      childArr l = none ∧ selfMatch "id" (some "2") none l = some "d" ∧
      (childArr (Value.obj [("id", Value.str "1"), ("content", Value.str "c"),
        ("children", Value.arr [Value.obj [("id", Value.str "2"),
          ("content", Value.str "d")]])]) ≠ none →
        l ≠ Value.obj [("id", Value.str "1"), ("content", Value.str "c"),
        ("children", Value.arr [Value.obj [("id", Value.str "2"),
          ("content", Value.str "d")]])]) :=
  search_leaf_only "id" (some "2") none _ "d"
    (by simp [traverse_json, traverse_list, childArr, Value.index, findField,
      selfMatch])

/-- C4: the search returns the `content` of the first matching leaf in
document order — `leaves` lists the leaves depth-first with children
left-to-right, and the result is the head of the matching ones, so earlier
matches win and later children are not consulted. -/
theorem search_first_match_document_order (key : String)
    (val cont : Option String) (j : Value) :
    traverse_json key val cont j =
      ((leaves j).filterMap (selfMatch key val cont)).head? :=
  traverse_json_eq_leaves key val cont j

theorem selfMatch_no_criterion (key : String) (j : Value) :
    selfMatch key none none j = none := by
  cases h1 : j.index key <;> cases h2 : j.index "content" <;>
    simp [selfMatch, h1, h2]

/-- C7: `-k` alone routes to a Search command with both criteria absent,
and a search with both criteria absent never matches any document, so the
program prints nothing. -/
theorem key_without_criterion_never_matches :
    parse_args ["prog", "-k", "note1"] =
      Args.keyArgs (some "note1") none none Input.stdin ∧
    ∀ (key : String) (j : Value), traverse_json key none none j = none := by
  refine ⟨rfl, fun key j => ?_⟩
  rw [traverse_json_eq_leaves]
  have hnil : (leaves j).filterMap (selfMatch key none none) = [] := by
    rw [List.filterMap_eq_nil_iff]
    intro a _
    exact selfMatch_no_criterion key a
  rw [hnil]
  rfl

/-! Properties of the argument interpreter. -/

/-- The tokens that consume the following argument. -/
def flagTok (s : String) : Bool :=
  s == "-k" || s == "--key" || s == "-v" || s == "--value" ||
    s == "-c" || s == "--contains"

/-- The help tokens. -/
def helpTok (s : String) : Bool := s == "-h" || s == "--help"

theorem finish_keyArgs_inv (st : PSt) (k v c : Option String) (inp : Input)
    (h : finish st = Args.keyArgs k v c inp) :
    ¬(v.isSome = true ∧ c.isSome = true) ∧
      ((v.isSome = true ∨ c.isSome = true) → k.isSome = true) := by
  unfold finish at h
  split at h
  · simp at h
  next hvc =>
    rcases hk : st.key with _ | kv <;>
      rcases hb : (st.val.isSome || st.cont.isSome) with _ | _ <;>
      rw [hk, hb] at h <;> simp only [] at h
    · cases h
      simp only [Bool.or_eq_false_iff] at hb
      constructor
      · intro hand; rw [hand.2] at hb; simp at hb
      · intro hor; cases hor with
        | inl h1 => rw [h1] at hb; simp at hb
        | inr h1 => rw [h1] at hb; simp at hb
    · simp at h
    · cases h
      constructor
      · intro hand
        rw [Bool.and_eq_true] at hvc
        exact hvc ⟨hand.1, hand.2⟩
      · intro _; rfl
    · cases h
      constructor
      · intro hand
        rw [Bool.and_eq_true] at hvc
        exact hvc ⟨hand.1, hand.2⟩
      · intro _; rfl

theorem parse_loop_keyArgs_inv :
    ∀ (n : Nat) (rest : List String) (total i : Nat) (st : PSt)
      (k v c : Option String) (inp : Input),
      rest.length ≤ n →
      parse_loop total i rest st = Args.keyArgs k v c inp →
      ¬(v.isSome = true ∧ c.isSome = true) ∧
        ((v.isSome = true ∨ c.isSome = true) → k.isSome = true) := by
  intro n
  induction n with
  | zero =>
    intro rest total i st k v c inp hlen h
    have hnil : rest = [] := List.eq_nil_of_length_eq_zero (by omega)
    subst hnil
    exact finish_keyArgs_inv st k v c inp h
  | succ m ih =>
    intro rest total i st k v c inp hlen h
    cases rest with
    | nil => exact finish_keyArgs_inv st k v c inp h
    | cons arg rest1 =>
      rw [parse_loop_cons] at h
      split at h
      · exact ih rest1 total (i + 1) st k v c inp (by simp at hlen; omega) h
      split at h
      · simp at h
      split at h
      · cases rest1 with
        | nil => simp at h
        | cons w rest2 =>
          exact ih rest2 total (i + 2) _ k v c inp (by simp at hlen; omega) h
      split at h
      · cases rest1 with
        | nil => simp at h
        | cons w rest2 =>
          exact ih rest2 total (i + 2) _ k v c inp (by simp at hlen; omega) h
      split at h
      · cases rest1 with
        | nil => simp at h
        | cons w rest2 =>
          exact ih rest2 total (i + 2) _ k v c inp (by simp at hlen; omega) h
      split at h
      · exact ih rest1 total (i + 1) _ k v c inp (by simp at hlen; omega) h
      · exact ih rest1 total (i + 1) st k v c inp (by simp at hlen; omega) h

/-- C5: supplying both `-v` and `-c` yields Help, as does `-v` or `-c`
without `-k`; in general the interpreter only builds Search commands
satisfying the criterion invariant — the exact-value and substring criteria
are never both set, and whenever either is set the key is also set. -/
theorem parse_args_criterion_invariant :
    parse_args ["prog", "-k", "a", "-v", "b", "-c", "d"] = Args.help ∧
    parse_args ["prog", "-v", "b"] = Args.help ∧
    parse_args ["prog", "-c", "d"] = Args.help ∧
    ∀ (args : List String) (k v c : Option String) (inp : Input),
      parse_args args = Args.keyArgs k v c inp →
      ¬(v.isSome = true ∧ c.isSome = true) ∧
        ((v.isSome = true ∨ c.isSome = true) → k.isSome = true) :=
  ⟨rfl, rfl, rfl, fun args k v c inp h =>
    parse_loop_keyArgs_inv args.length args args.length 0
      ⟨none, none, none, .stdin⟩ k v c inp (by omega) h⟩

/-- C5 witness: `-k a -v b` parses to a Search command, and the invariant
holds for it. -/
theorem parse_args_criterion_invariant_witness :
    ¬((some "b" : Option String).isSome = true ∧
        (none : Option String).isSome = true) ∧
      (((some "b" : Option String).isSome = true ∨
          (none : Option String).isSome = true) →
        (some "a" : Option String).isSome = true) :=
  parse_args_criterion_invariant.2.2.2 ["prog", "-k", "a", "-v", "b"]
    (some "a") (some "b") none Input.stdin rfl

/-- Scan reachability, relative to a scanner positioned at the head of
`rest` (some position after index 0): relative position 0 is reached; if the
head is a consuming flag (`-k`/`-v`/`-c`/long forms) it consumes relative
position 1 and the scan resumes two tokens later, otherwise the scan moves
one token.  `scanned rest k = true` exactly when relative position `k` is
reached as a flag position rather than consumed as a flag argument. -/
def scanned : List String → Nat → Bool
  | [], _ => false
  | _ :: _, 0 => true
  | arg :: rest, k + 1 =>
    if flagTok arg then
      match rest, k with
      | [], _ => false
      | _ :: _, 0 => false
      | _ :: rest2, k2 + 1 => scanned rest2 k2
    else scanned rest k

/-- Whether the scan of `parse_args` reaches absolute index `i` of the
argument vector as a flag position: index 0 (the program name) is skipped,
and the scan proper starts at index 1. -/
def scannedPos (args : List String) (i : Nat) : Bool :=
  match args, i with
  | [], _ => false
  | _ :: _, 0 => false
  | _ :: rest, k + 1 => scanned rest k

theorem scanned_cons_succ (arg : String) (rest : List String) (k : Nat) :
    scanned (arg :: rest) (k + 1) =
      if flagTok arg then
        match rest, k with
        | [], _ => false
        | _ :: _, 0 => false
        | _ :: rest2, k2 + 1 => scanned rest2 k2
      else scanned rest k := by
  rw [scanned.eq_def]

theorem parse_loop_help_scanned :
    ∀ (n : Nat) (rest : List String) (total i : Nat) (st : PSt)
      (k : Nat) (tok : String),
      rest.length ≤ n → 1 ≤ i →
      rest[k]? = some tok → helpTok tok = true →
      scanned rest k = true →
      parse_loop total i rest st = Args.help := by
  intro n
  induction n with
  | zero =>
    intro rest total i st k tok hlen hi hp htok hscan
    have hnil : rest = [] := List.eq_nil_of_length_eq_zero (by omega)
    subst hnil
    simp at hp
  | succ m ih =>
    intro rest total i st k tok hlen hi hp htok hscan
    cases rest with
    | nil => simp at hp
    | cons arg rest1 =>
      rw [parse_loop_cons]
      rw [if_neg (by omega)]
      by_cases hh : arg = "-h" ∨ arg = "--help"
      · rw [if_pos hh]
      rw [if_neg hh]
      cases k with
      | zero =>
        exfalso
        rw [List.getElem?_cons_zero] at hp
        cases hp
        simp [helpTok] at htok
        rcases htok with h1 | h1 <;> exact hh (by simp [h1])
      | succ k1 =>
        rw [List.getElem?_cons_succ] at hp
        rw [scanned_cons_succ] at hscan
        by_cases hflag : flagTok arg = true
        · -- a consuming flag: reachability forces a follower and a target
          -- strictly beyond it
          rw [if_pos hflag] at hscan
          cases rest1 with
          | nil => simp at hscan
          | cons w rest2 =>
            cases k1 with
            | zero => simp at hscan
            | succ k2 =>
              simp only [] at hscan
              rw [List.getElem?_cons_succ] at hp
              have hrec : ∀ st2 : PSt,
                  parse_loop total (i + 2) rest2 st2 = Args.help := fun st2 =>
                ih rest2 total (i + 2) st2 k2 tok (by simp at hlen; omega)
                  (by omega) hp htok hscan
              simp only [flagTok, Bool.or_eq_true, beq_iff_eq] at hflag
              rcases hflag with ((((h1 | h1) | h1) | h1) | h1) | h1 <;> subst h1
              · rw [if_pos (Or.inl rfl)]
                exact hrec _
              · rw [if_pos (Or.inr rfl)]
                exact hrec _
              · rw [if_neg (by simp), if_pos (Or.inl rfl)]
                exact hrec _
              · rw [if_neg (by simp), if_pos (Or.inr rfl)]
                exact hrec _
              · rw [if_neg (by simp), if_neg (by simp), if_pos (Or.inl rfl)]
                exact hrec _
              · rw [if_neg (by simp), if_neg (by simp), if_pos (Or.inr rfl)]
                exact hrec _
        · -- not a consuming flag: the scan steps one token
          rw [if_neg hflag] at hscan
          have hnotflag : flagTok arg = false := by
            cases hb : flagTok arg
            · rfl
            · exact absurd hb hflag
          have hrec1 : ∀ st2 : PSt,
              parse_loop total (i + 1) rest1 st2 = Args.help := fun st2 =>
            ih rest1 total (i + 1) st2 k1 tok (by simp at hlen; omega)
              (by omega) hp htok hscan
          rw [if_neg (by rintro (h1 | h1) <;> subst h1 <;>
            simp [flagTok] at hnotflag)]
          rw [if_neg (by rintro (h1 | h1) <;> subst h1 <;>
            simp [flagTok] at hnotflag)]
          rw [if_neg (by rintro (h1 | h1) <;> subst h1 <;>
            simp [flagTok] at hnotflag)]
          by_cases hlast : i = total - 1
          · rw [if_pos hlast]; exact hrec1 _
          · rw [if_neg hlast]; exact hrec1 _

/-- C2 (amended): a `-h`/`--help` token that the scan actually reaches —
any occurrence after index 0 that is not consumed as the argument of an
immediately preceding consuming-flag occurrence (`scannedPos` computes
reachability directly from the scan semantics) — yields Help regardless of
the other flags present. -/
theorem parse_args_help_token (args : List String) (i : Nat) (tok : String)
    (h2 : args[i]? = some tok) (h3 : helpTok tok = true)
    (h4 : scannedPos args i = true) :
    parse_args args = Args.help := by
  cases args with
  | nil => simp [scannedPos] at h4
  | cons a0 rest =>
    unfold parse_args
    rw [parse_loop_cons, if_pos rfl]
    cases i with
    | zero => simp [scannedPos] at h4
    | succ k =>
      rw [List.getElem?_cons_succ] at h2
      exact parse_loop_help_scanned rest.length rest (a0 :: rest).length 1
        ⟨none, none, none, .stdin⟩ k tok (by omega) (by omega) h2 h3
        (by simpa [scannedPos] using h4)

/-- C2 witness: in `["prog", "-k", "-v", "-h"]` the `-k` consumes the `-v`
as the key name, so the `-h` at index 3 is genuinely scanned (even though
its predecessor is flag-shaped) and the parse yields Help. -/
theorem parse_args_help_token_witness :
    parse_args ["prog", "-k", "-v", "-h"] = Args.help :=
  parse_args_help_token ["prog", "-k", "-v", "-h"] 3 "-h" rfl rfl rfl

/-- C2 counterexample: `-h` immediately after `-k` is consumed as the key
name, so the parsed command is a Search with key `"-h"`, not Help — the
claim "`-h` at any position after index 0 yields Help, including
immediately after `-k`" is false on the code. -/
theorem parse_args_help_after_key_not_help :
    parse_args ["prog", "-k", "-h"] =
      Args.keyArgs (some "-h") none none Input.stdin ∧
    parse_args ["prog", "-k", "-h"] ≠ Args.help := by
  constructor
  · rfl
  · intro h
    cases h

/-! Facts about byte-level truncation. -/

theorem charBytes_pos (c : Char) : 1 ≤ charBytes c := by
  unfold charBytes
  split
  · omega
  · split
    · omega
    · split <;> omega

theorem takeBytes_spec (cs : List Char) :
    ∀ (n : Nat) (ds : List Char), takeBytes cs n = some ds →
      (∃ r, cs = ds ++ r) ∧ ds.length ≤ n := by
  induction cs with
  | nil =>
    intro n ds h
    cases n with
    | zero =>
      simp only [takeBytes, Option.some.injEq] at h
      subst h
      exact ⟨⟨[], rfl⟩, by simp⟩
    | succ m =>
      simp only [takeBytes] at h
      exact Option.noConfusion h
  | cons c rest ih =>
    intro n ds h
    cases n with
    | zero =>
      simp only [takeBytes, Option.some.injEq] at h
      subst h
      exact ⟨⟨c :: rest, rfl⟩, by simp⟩
    | succ m =>
      simp only [takeBytes] at h
      split at h
      · rcases htb : takeBytes rest (m + 1 - charBytes c) with _ | ds1 <;>
          rw [htb] at h
        · exact Option.noConfusion h
        · simp only [Option.map_some'] at h
          cases h
          obtain ⟨⟨r, hr⟩, hlen⟩ := ih (m + 1 - charBytes c) ds1 htb
          have hpos := charBytes_pos c
          refine ⟨⟨r, by rw [hr]; rfl⟩, ?_⟩
          simp only [List.length_cons]
          omega
      · exact Option.noConfusion h

theorem truncate30_spec (s t2 : String) (h : truncate30 s = some t2) :
    (∃ r, s.data = t2.data ++ r) ∧ t2.data.length ≤ 30 := by
  unfold truncate30 at h
  rcases htb : takeBytes s.data (min 30 (utf8Len s.data)) with _ | ds <;>
    rw [htb] at h
  · exact Option.noConfusion h
  · simp only [Option.map_some'] at h
    cases h
    obtain ⟨hpre, hlen⟩ := takeBytes_spec s.data _ ds htb
    exact ⟨hpre, le_trans hlen (Nat.min_le_left _ _)⟩

/-! Shape lemmas for the summary field builders. -/

theorem idField_of_str (j : Value) (i : String)
    (h : j.index "id" = Value.str i) :
    idField j = [("id", Value.str i)] := by
  unfold idField; rw [h]

theorem idField_of_not_str (j : Value) (h : (j.index "id").isStr = false) :
    idField j = [] := by
  cases hx : j.index "id" <;> simp_all [idField, Value.isStr]

theorem idField_cases (j : Value) :
    idField j = [] ∨ ∃ x, idField j = [("id", Value.str x)] := by
  unfold idField
  cases j.index "id" <;> simp

theorem subjField_of_str (j : Value) (t : String)
    (h : j.index "subject" = Value.str t) :
    subjField j = (truncate30 t).map (fun t2 => [("subject", Value.str t2)]) := by
  unfold subjField; rw [h]

theorem subjField_of_not_str (j : Value)
    (h : (j.index "subject").isStr = false) : subjField j = some [] := by
  cases hx : j.index "subject" <;> simp_all [subjField, Value.isStr]

theorem subjField_str_elim (j : Value) (t : String) (sf : List (String × Value))
    (hstr : j.index "subject" = Value.str t) (hsf : subjField j = some sf) :
    ∃ t2, truncate30 t = some t2 ∧ sf = [("subject", Value.str t2)] := by
  rw [subjField_of_str j t hstr] at hsf
  rcases htr : truncate30 t with _ | t2 <;> rw [htr] at hsf
  · exact Option.noConfusion hsf
  · simp only [Option.map_some'] at hsf
    cases hsf
    exact ⟨t2, rfl, rfl⟩

theorem subjField_shape (j : Value) (sf : List (String × Value))
    (h : subjField j = some sf) :
    sf = [] ∨ ∃ x, sf = [("subject", x)] := by
  cases hx : j.index "subject"
  case str t =>
    obtain ⟨t2, htr, rfl⟩ := subjField_str_elim j t sf hx h
    exact Or.inr ⟨_, rfl⟩
  all_goals
    rw [subjField_of_not_str j (by rw [hx]; rfl)] at h
    cases h
    exact Or.inl rfl

theorem contField_of_str (j : Value) (t : String)
    (h : j.index "content" = Value.str t) :
    contField j = (truncate30 t).map (fun t2 => [("content", Value.str t2)]) := by
  unfold contField; rw [h]

theorem contField_of_not_str (j : Value)
    (h : (j.index "content").isStr = false) : contField j = some [] := by
  cases hx : j.index "content" <;> simp_all [contField, Value.isStr]

theorem contField_str_elim (j : Value) (t : String) (cf : List (String × Value))
    (hstr : j.index "content" = Value.str t) (hcf : contField j = some cf) :
    ∃ t2, truncate30 t = some t2 ∧ cf = [("content", Value.str t2)] := by
  rw [contField_of_str j t hstr] at hcf
  rcases htr : truncate30 t with _ | t2 <;> rw [htr] at hcf
  · exact Option.noConfusion hcf
  · simp only [Option.map_some'] at hcf
    cases hcf
    exact ⟨t2, rfl, rfl⟩

theorem contField_shape (j : Value) (cf : List (String × Value))
    (h : contField j = some cf) :
    cf = [] ∨ ∃ x, cf = [("content", x)] := by
  cases hx : j.index "content"
  case str t =>
    obtain ⟨t2, htr, rfl⟩ := contField_str_elim j t cf hx h
    exact Or.inr ⟨_, rfl⟩
  all_goals
    rw [contField_of_not_str j (by rw [hx]; rfl)] at h
    cases h
    exact Or.inl rfl

/-! Destructor lemmas for `summary_traversal_helper`. -/

theorem summary_helper_subj_none (j : Value) (h : subjField j = none) :
    summary_traversal_helper j = none := by
  rw [summary_traversal_helper]
  split <;> rw [h] <;> rfl

theorem summary_helper_cont_none (j : Value) (sf : List (String × Value))
    (hsf : subjField j = some sf) (hcf : contField j = none) :
    summary_traversal_helper j = none := by
  rw [summary_traversal_helper]
  split <;> rw [hsf, hcf] <;> rfl

theorem summary_helper_eq_none_child (j : Value) (sf cf : List (String × Value))
    (hsf : subjField j = some sf) (hcf : contField j = some cf)
    (hc : childArr j = none) :
    summary_traversal_helper j = some (Value.obj (idField j ++ sf ++ cf)) := by
  rw [summary_traversal_helper]
  split
  next cs heq => rw [hc] at heq; exact Option.noConfusion heq
  next heq => rw [hsf, hcf]

theorem summary_helper_list_none (j : Value) (cs : List Value)
    (sf cf : List (String × Value))
    (hsf : subjField j = some sf) (hcf : contField j = some cf)
    (hc : childArr j = some cs) (hl : summary_list cs = none) :
    summary_traversal_helper j = none := by
  rw [summary_traversal_helper]
  split
  next cs2 heq =>
    rw [hc] at heq
    cases heq
    rw [hsf, hcf, hl]
  next heq => rw [hc] at heq; exact Option.noConfusion heq

theorem summary_helper_eq_some_child (j : Value) (sf cf : List (String × Value))
    (cs scs : List Value)
    (hsf : subjField j = some sf) (hcf : contField j = some cf)
    (hc : childArr j = some cs) (hl : summary_list cs = some scs) :
    summary_traversal_helper j =
      some (Value.obj (idField j ++ sf ++ cf ++
        [("children", Value.arr scs)])) := by
  rw [summary_traversal_helper]
  split
  next cs2 heq =>
    rw [hc] at heq
    cases heq
    rw [hsf, hcf, hl]
  next heq => rw [hc] at heq; exact Option.noConfusion heq

theorem summary_helper_some_elim (j s : Value)
    (h : summary_traversal_helper j = some s) :
    ∃ sf cf, subjField j = some sf ∧ contField j = some cf ∧
      ((childArr j = none ∧ s = Value.obj (idField j ++ sf ++ cf)) ∨
       (∃ cs scs, childArr j = some cs ∧ summary_list cs = some scs ∧
         s = Value.obj (idField j ++ sf ++ cf ++
           [("children", Value.arr scs)]))) := by
  rcases hsf : subjField j with _ | sf
  · rw [summary_helper_subj_none j hsf] at h; exact Option.noConfusion h
  rcases hcf : contField j with _ | cf
  · rw [summary_helper_cont_none j sf hsf hcf] at h; exact Option.noConfusion h
  refine ⟨sf, cf, rfl, rfl, ?_⟩
  cases hc : childArr j with
  | none =>
    rw [summary_helper_eq_none_child j sf cf hsf hcf hc] at h
    cases h
    exact Or.inl ⟨rfl, rfl⟩
  | some cs =>
    rcases hl : summary_list cs with _ | scs
    · rw [summary_helper_list_none j cs sf cf hsf hcf hc hl] at h
      exact Option.noConfusion h
    · rw [summary_helper_eq_some_child j sf cf cs scs hsf hcf hc hl] at h
      cases h
      exact Or.inr ⟨cs, scs, rfl, hl, rfl⟩

theorem summary_list_forall₂ (cs : List Value) :
    ∀ scs : List Value, summary_list cs = some scs →
      List.Forall₂ (fun c sc => summary_traversal_helper c = some sc) cs scs := by
  induction cs with
  | nil =>
    intro scs h
    rw [summary_list] at h
    cases h
    exact List.Forall₂.nil
  | cons c rest ih =>
    intro scs h
    rw [summary_list] at h
    rcases hc : summary_traversal_helper c with _ | sc <;> rw [hc] at h
    · rcases hr : summary_list rest with _ | srest <;> rw [hr] at h <;>
        exact Option.noConfusion h
    · rcases hr : summary_list rest with _ | srest <;> rw [hr] at h
      · exact Option.noConfusion h
      · cases h
        exact List.Forall₂.cons hc (ih srest hr)

theorem childArr_of_children_null (s : Value)
    (h : s.index "children" = Value.null) : childArr s = none := by
  unfold childArr; rw [h]

theorem childArr_some_ne_nil (j : Value) (cs : List Value)
    (h : childArr j = some cs) : cs ≠ [] := by
  intro h0
  subst h0
  unfold childArr at h
  split at h
  next cs2 heq =>
    split at h
    · exact Option.noConfusion h
    next hne =>
      simp only [Option.some.injEq] at h
      subst h
      simp at hne
  next => exact Option.noConfusion h

/-- The `children` field of a successful summary: absent (null) when the
source has no non-empty children array, and the summarized children array
otherwise. -/
theorem summary_children_field (j s : Value)
    (h : summary_traversal_helper j = some s) :
    (childArr j = none → s.index "children" = Value.null) ∧
    (∀ cs, childArr j = some cs → ∃ scs, s.index "children" = Value.arr scs ∧
      summary_list cs = some scs) := by
  obtain ⟨sf, cf, hsf, hcf, hbr⟩ := summary_helper_some_elim j s h
  rcases hbr with ⟨hc, rfl⟩ | ⟨cs, scs, hc, hl, rfl⟩
  · constructor
    · intro _
      rcases idField_cases j with hid | ⟨xi, hid⟩ <;> rw [hid] <;>
        rcases subjField_shape j sf hsf with rfl | ⟨xs, rfl⟩ <;>
        rcases contField_shape j cf hcf with rfl | ⟨xc, rfl⟩ <;>
        simp [Value.index, findField]
    · intro cs hcs
      rw [hc] at hcs
      exact Option.noConfusion hcs
  · constructor
    · intro hn
      rw [hc] at hn
      exact Option.noConfusion hn
    · intro cs2 hcs2
      rw [hc] at hcs2
      cases hcs2
      refine ⟨scs, ?_, hl⟩
      rcases idField_cases j with hid | ⟨xi, hid⟩ <;> rw [hid] <;>
        rcases subjField_shape j sf hsf with rfl | ⟨xs, rfl⟩ <;>
        rcases contField_shape j cf hcf with rfl | ⟨xc, rfl⟩ <;>
        simp [Value.index, findField]

/-! Depth preservation for the summary. -/

theorem depthList_of_forall₂ (cs scs : List Value)
    (hf : List.Forall₂ (fun c sc => summary_traversal_helper c = some sc) cs scs)
    (hd : ∀ c ∈ cs, ∀ sc, summary_traversal_helper c = some sc →
      depth sc = depth c) :
    depthList scs = depthList cs := by
  induction hf with
  | nil => rfl
  | cons hrel hrest ih =>
    rw [depthList, depthList]
    rw [hd _ (by simp) _ hrel, ih (fun c hc sc hsc => hd c (by simp [hc]) sc hsc)]

theorem summary_depth_aux :
    ∀ (n : Nat) (j s : Value), sizeOf j < n →
      summary_traversal_helper j = some s → depth s = depth j := by
  intro n
  induction n with
  | zero => intro j s h; omega
  | succ m ih =>
    intro j s hj h
    obtain ⟨hnone, hsome⟩ := summary_children_field j s h
    cases hc : childArr j with
    | none =>
      rw [depth_of_none j hc, depth_of_none s (childArr_of_children_null s (hnone hc))]
    | some cs =>
      obtain ⟨scs, hsidx, hl⟩ := hsome cs hc
      have hf := summary_list_forall₂ cs scs hl
      have hscs_ne : scs ≠ [] := by
        have hcs_ne : cs ≠ [] := childArr_some_ne_nil j cs hc
        intro hsnil
        subst hsnil
        cases hf
        exact hcs_ne rfl
      have hcs2 : childArr s = some scs := by
        unfold childArr
        rw [hsidx]
        simp [hscs_ne]
      rw [depth_of_some j cs hc, depth_of_some s scs hcs2]
      have heq : depthList scs = depthList cs := by
        refine depthList_of_forall₂ cs scs hf fun c hcmem sc hsc => ?_
        refine ih c sc ?_ hsc
        have h1 : sizeOf cs < sizeOf j := childArr_sizeOf j cs hc
        have h2 : sizeOf c < sizeOf cs := List.sizeOf_lt_of_mem hcmem
        omega
      rw [heq]

/-- C9: the summary is structurally parallel to the source — it has a
`children` field exactly when the original has a non-empty children array,
each child is recursively summarized in the same order (`Forall₂`
pairing preserves both order and count), and the nesting depth is
preserved. -/
theorem summary_structurally_parallel (j s : Value)
    (h : summary_traversal_helper j = some s) :
    (∀ cs, childArr j = some cs → ∃ scs, s.index "children" = Value.arr scs ∧
      List.Forall₂ (fun c sc => summary_traversal_helper c = some sc) cs scs) ∧
    (childArr j = none → s.index "children" = Value.null) ∧
    depth s = depth j := by
  obtain ⟨hnone, hsome⟩ := summary_children_field j s h
  refine ⟨fun cs hc => ?_, hnone,
    summary_depth_aux (sizeOf j + 1) j s (by omega) h⟩
  obtain ⟨scs, hsidx, hl⟩ := hsome cs hc
  exact ⟨scs, hsidx, summary_list_forall₂ cs scs hl⟩

/-- C9 witness: a one-child tree summarizes to a one-child summary whose
child is the summary of the original child. -/
theorem summary_structurally_parallel_witness :
    ∃ scs, (Value.obj [("children", Value.arr [Value.obj []])]).index
        "children" = Value.arr scs ∧
      List.Forall₂ (fun c sc => summary_traversal_helper c = some sc)
        [Value.null] scs :=
  (summary_structurally_parallel (Value.obj [("children", Value.arr [Value.null])])
      (Value.obj [("children", Value.arr [Value.obj []])])
      (by simp [summary_traversal_helper, summary_list, subjField, contField,
        idField, childArr, Value.index, findField])).1
    [Value.null] (by simp [childArr, Value.index, findField])

/-- C8: the summary keeps `id` verbatim, truncates `subject` and `content`
to a prefix of at most 30 characters, and omits any of the three fields
that is absent or non-string in the source (lookup yields null, never a
substituted default). -/
theorem summary_field_shape (j s : Value)
    (h : summary_traversal_helper j = some s) :
    (∀ i, j.index "id" = Value.str i → s.index "id" = Value.str i) ∧
    ((j.index "id").isStr = false → s.index "id" = Value.null) ∧
    (∀ t, j.index "subject" = Value.str t →
      ∃ t2, s.index "subject" = Value.str t2 ∧
        (∃ r, t.data = t2.data ++ r) ∧ t2.data.length ≤ 30) ∧
    ((j.index "subject").isStr = false → s.index "subject" = Value.null) ∧
    (∀ t, j.index "content" = Value.str t →
      ∃ t2, s.index "content" = Value.str t2 ∧
        (∃ r, t.data = t2.data ++ r) ∧ t2.data.length ≤ 30) ∧
    ((j.index "content").isStr = false → s.index "content" = Value.null) := by
  obtain ⟨sf, cf, hsf, hcf, hbr⟩ := summary_helper_some_elim j s h
  have hchf : ∃ chf, s = Value.obj (idField j ++ sf ++ cf ++ chf) ∧
      (chf = [] ∨ ∃ a, chf = [("children", a)]) := by
    rcases hbr with ⟨hc, rfl⟩ | ⟨cs, scs, hc, hl, rfl⟩
    · exact ⟨[], by simp, Or.inl rfl⟩
    · exact ⟨[("children", Value.arr scs)], rfl, Or.inr ⟨_, rfl⟩⟩
  obtain ⟨chf, rfl, hchfs⟩ := hchf
  refine ⟨?_, ?_, ?_, ?_, ?_, ?_⟩
  · intro i hi
    rw [idField_of_str j i hi]
    simp [Value.index, findField]
  · intro hnot
    rw [idField_of_not_str j hnot]
    rcases subjField_shape j sf hsf with rfl | ⟨xs, rfl⟩ <;>
      rcases contField_shape j cf hcf with rfl | ⟨xc, rfl⟩ <;>
      rcases hchfs with rfl | ⟨a, rfl⟩ <;>
      simp [Value.index, findField]
  · intro t ht
    obtain ⟨t2, htr, rfl⟩ := subjField_str_elim j t sf ht hsf
    obtain ⟨⟨r, hpre⟩, hlen⟩ := truncate30_spec t t2 htr
    refine ⟨t2, ?_, ⟨r, hpre⟩, hlen⟩
    rcases idField_cases j with hid | ⟨xi, hid⟩ <;> rw [hid] <;>
      simp [Value.index, findField]
  · intro hnot
    have hsf0 : sf = [] := by
      rw [subjField_of_not_str j hnot] at hsf
      cases hsf
      rfl
    subst hsf0
    rcases idField_cases j with hid | ⟨xi, hid⟩ <;> rw [hid] <;>
      rcases contField_shape j cf hcf with rfl | ⟨xc, rfl⟩ <;>
      rcases hchfs with rfl | ⟨a, rfl⟩ <;>
      simp [Value.index, findField]
  · intro t ht
    obtain ⟨t2, htr, rfl⟩ := contField_str_elim j t cf ht hcf
    obtain ⟨⟨r, hpre⟩, hlen⟩ := truncate30_spec t t2 htr
    refine ⟨t2, ?_, ⟨r, hpre⟩, hlen⟩
    rcases idField_cases j with hid | ⟨xi, hid⟩ <;> rw [hid] <;>
      rcases subjField_shape j sf hsf with rfl | ⟨xs, rfl⟩ <;>
      simp [Value.index, findField]
  · intro hnot
    have hcf0 : cf = [] := by
      rw [contField_of_not_str j hnot] at hcf
      cases hcf
      rfl
    subst hcf0
    rcases idField_cases j with hid | ⟨xi, hid⟩ <;> rw [hid] <;>
      rcases subjField_shape j sf hsf with rfl | ⟨xs, rfl⟩ <;>
      rcases hchfs with rfl | ⟨a, rfl⟩ <;>
      simp [Value.index, findField]

/-- C8 witness: a node with a string `id` keeps it verbatim in the
summary. -/
theorem summary_field_shape_witness :
    (Value.obj [("id", Value.str "x"), ("subject", Value.str "hello")]).index
      "id" = Value.str "x" :=
  (summary_field_shape
    (Value.obj [("id", Value.str "x"), ("subject", Value.str "hello")])
    (Value.obj [("id", Value.str "x"), ("subject", Value.str "hello")])
    (by simp [summary_traversal_helper, subjField, contField, idField,
      childArr, Value.index, findField, truncate30, takeBytes, utf8Len,
      charBytes])).1 "x" (by simp [Value.index, findField])

/-- Whether main's summary branch prints anything: main prints the summary
string exactly when `summary_traversal` yields `Some`, and the (external)
serializer succeeds on every summary value the helper builds, so in the
model output occurs exactly when the helper returns `some`. -/
def summaryPrints (j : Value) : Bool := (summary_traversal_helper j).isSome

/-- Whether a document has no navigable structure at its root: no string
`id`/`subject`/`content` field and no non-empty `children` array. -/
def noNav (j : Value) : Bool :=
  !(j.index "id").isStr && !(j.index "subject").isStr &&
    !(j.index "content").isStr && (childArr j).isNone

/-- C6 (amended): in summary mode a document with no navigable structure
yields `some` empty summary object, which main serializes and prints as
`{}` — the program prints the empty object, not nothing. -/
theorem summary_no_structure_empty_object (j : Value) (h : noNav j = true) :
    summary_traversal_helper j = some (Value.obj []) := by
  unfold noNav at h
  simp only [Bool.and_eq_true, Bool.not_eq_true'] at h
  obtain ⟨⟨⟨hid, hsub⟩, hcont⟩, hch⟩ := h
  have hceq : childArr j = none := Option.isNone_iff_eq_none.mp hch
  have h2 := subjField_of_not_str j hsub
  have h3 := contField_of_not_str j hcont
  rw [summary_helper_eq_none_child j [] [] h2 h3 hceq,
    idField_of_not_str j hid]
  simp

/-- C6 witness: the empty-summary result on the null document. -/
theorem summary_no_structure_empty_object_witness :
    noNav Value.null = true ∧
      summary_traversal_helper Value.null = some (Value.obj []) :=
  ⟨rfl, summary_no_structure_empty_object Value.null rfl⟩

/-- C6 counterexample: on the structure-less document `{}` the summary is
`some {}` (not `none`), so main prints the pretty-printed empty object —
two characters plus a newline — rather than printing nothing as the claim
states. -/
theorem summary_of_structureless_doc_not_nothing :
    summary_traversal_helper (Value.obj []) = some (Value.obj []) ∧
    summaryPrints (Value.obj []) = true := by
  constructor <;>
    simp [summaryPrints, summary_traversal_helper, subjField, contField,
      idField, childArr, Value.index, findField]

/-- C1 (code bug): summarizing a node whose `content` is 29 ASCII
characters followed by the two-byte character `é` slices at byte index 30,
which falls inside the encoding of `é`; the Rust byte-slice panics there
(modelled as `none`), contradicting the claim that truncation always lands
on a character boundary and completes without fault. -/
theorem summary_panics_on_multibyte :
    summary_traversal_helper
      (Value.obj [("content",
        Value.str (String.mk (List.replicate 29 'a' ++ ['é'])))]) = none := by
  have hsf : subjField (Value.obj [("content",
      Value.str (String.mk (List.replicate 29 'a' ++ ['é'])))]) = some [] := rfl
  have hcf : contField (Value.obj [("content",
      Value.str (String.mk (List.replicate 29 'a' ++ ['é'])))]) = none := rfl
  exact summary_helper_cont_none _ [] hsf hcf

/-- C10: a node whose `children` field is present but not an array (e.g. a
string) or is an empty array is treated as a leaf by both operations: the
search tests it directly against the criterion instead of recursing, and
its summary omits the `children` field entirely. -/
theorem degenerate_children_treated_as_leaf (j : Value)
    (h : ∀ cs, j.index "children" = Value.arr cs → cs = []) :
    (∀ (key : String) (val cont : Option String),
      traverse_json key val cont j = selfMatch key val cont j) ∧
    (∀ s, summary_traversal_helper j = some s →
      s.index "children" = Value.null) := by
  have hc : childArr j = none := by
    unfold childArr
    cases hx : j.index "children" with
    | arr cs =>
      have h0 := h cs hx
      subst h0
      rfl
    | null => rfl
    | bool b => rfl
    | num n => rfl
    | str t => rfl
    | obj fs => rfl
  exact ⟨fun key val cont => traverse_json_of_none key val cont j hc,
    fun s hs => (summary_children_field j s hs).1 hc⟩

/-- C10 witness: a node with `children` set to a string is matched
directly by the search. -/
theorem degenerate_children_treated_as_leaf_witness :
    traverse_json "id" (some "1") none
      (Value.obj [("children", Value.str "x"), ("id", Value.str "1"),
        ("content", Value.str "c")]) =
    selfMatch "id" (some "1") none
      (Value.obj [("children", Value.str "x"), ("id", Value.str "1"),
        ("content", Value.str "c")]) :=
  (degenerate_children_treated_as_leaf
    (Value.obj [("children", Value.str "x"), ("id", Value.str "1"),
      ("content", Value.str "c")])
    (by intro cs hcs; simp [Value.index, findField] at hcs)).1
    "id" (some "1") none

end VivaldiNotes
